import Mathlib

/-!
Verification of the VAE training script (vae.py).

Matrices over the reals are embedded as a row count, a column count and a
total entry function; numpy reductions along the feature axis become sums
over `Finset.range cols`.  Randomness (uniform binarization draws and the
reparameterization noise) is passed as an explicit matrix argument.
Fallible numpy operations (indexing `params[-1]` of an empty list) are
embedded in `Option`.
-/

namespace VAE

noncomputable section

/-- A real matrix: row count, column count, and a total entry function. -/
structure Mat where
  rows : ℕ
  cols : ℕ
  entry : ℕ → ℕ → ℝ

/-- A real vector: length and a total entry function. -/
structure Vec where
  len : ℕ
  entry : ℕ → ℝ

/-- From vae.py line 18: `sigmoid(x) = 1.0 / (1.0 + np.exp(-x))`. -/
def sigmoid (x : ℝ) : ℝ := 1.0 / (1.0 + Real.exp (-x))

/-- From vae.py line 23: `relu(x) = np.maximum(0, x)`. -/
def relu (x : ℝ) : ℝ := max 0 x

/-- Elementwise relu of a matrix. -/
def matRelu (A : Mat) : Mat := ⟨A.rows, A.cols, fun i j => relu (A.entry i j)⟩

/-- One layer: `np.dot(inputs, W) + b` with the bias broadcast across rows
(vae.py lines 46 and 52). -/
def affine (inputs : Mat) (l : Mat × Vec) : Mat :=
  ⟨inputs.rows, l.1.cols,
    fun i j => (∑ k in Finset.range inputs.cols, inputs.entry i k * l.1.entry k j) + l.2.entry j⟩

/-- The loop `for W, b in params[:-1]: inputs = relu(np.dot(inputs, W) + b)`
of vae.py lines 45-47, as a left fold over the non-final layers. -/
def hiddenPass (params : List (Mat × Vec)) (inputs : Mat) : Mat :=
  params.foldl (fun inp l => matRelu (affine inp l)) inputs

/-- From vae.py lines 39-54: relu layers `params[:-1]`, then the last layer
`params[-1]` applied linearly.  `params[-1]` of an empty list raises in
numpy, so the result is an `Option`. -/
def neural_net_predict (params : List (Mat × Vec)) (inputs : Mat) : Option Mat :=
  (params.getLast?).map (fun l => affine (hiddenPass params.dropLast inputs) l)

/-- From vae.py lines 58-69: split the encoder output into mean (first `D`
columns) and log-std (last `D` columns), `D = cols / 2`, and return
`mean + exp(log_std) * noise` where the standard-normal draw `npr.randn`
is passed explicitly as `noise`. -/
def sample_latent_variables_from_posterior (encoder_output noise : Mat) : Mat :=
  ⟨encoder_output.rows, encoder_output.cols / 2,
    fun i j => encoder_output.entry i j +
      Real.exp (encoder_output.entry i (encoder_output.cols / 2 + j)) * noise.entry i j⟩

/-- From vae.py lines 73-84:
`np.sum(np.log(targets * sig_logits + (1 - targets) * (1 - sig_logits)), axis=1)`
with `sig_logits = sigmoid(logits)`. -/
def bernoulli_log_prob (targets logits : Mat) : Vec :=
  ⟨targets.rows,
    fun i => ∑ j in Finset.range targets.cols,
      Real.log (targets.entry i j * sigmoid (logits.entry i j) +
        (1 - targets.entry i j) * (1 - sigmoid (logits.entry i j)))⟩

/-- The spec's per-element formula for the Bernoulli log-likelihood
(spec section 4.3): `target*log(p) + (1-target)*log(1-p)`, summed across the
feature axis. -/
def bernoulli_log_prob_spec (targets logits : Mat) : Vec :=
  ⟨targets.rows,
    fun i => ∑ j in Finset.range targets.cols,
      (targets.entry i j * Real.log (sigmoid (logits.entry i j)) +
        (1 - targets.entry i j) * Real.log (1 - sigmoid (logits.entry i j)))⟩

/-- From vae.py lines 88-99: `variance = exp(log_std * 2)` and
`.5 * np.sum(variance + mean**2 - 1 - 2 * log_std, axis=1)`. -/
def compute_KL (q : Mat) : Vec :=
  ⟨q.rows,
    fun i => 0.5 * ∑ j in Finset.range (q.cols / 2),
      (Real.exp (q.entry i (q.cols / 2 + j) * 2) + (q.entry i j) ^ 2 - 1 -
        2 * q.entry i (q.cols / 2 + j))⟩

/-- Elementwise difference of two vectors (numpy `log_prob - divergence`). -/
def vecSub (a b : Vec) : Vec := ⟨a.len, fun i => a.entry i - b.entry i⟩

/-- `np.mean` of a vector. -/
def meanVec (v : Vec) : ℝ := (∑ i in Finset.range v.len, v.entry i) / (v.len : ℝ)

/-- From vae.py lines 103-125: encoder output from the recognition net, one
posterior sample, decoder output from the generator net, then
`np.mean(log_prob - divergence)`. -/
def vae_lower_bound (gen_params rec_params : List (Mat × Vec)) (data noise : Mat) : Option ℝ :=
  (neural_net_predict rec_params data).bind (fun encoder_output =>
    (neural_net_predict gen_params
        (sample_latent_variables_from_posterior encoder_output noise)).bind
      (fun decoder_output =>
        some (meanVec (vecSub (bernoulli_log_prob data decoder_output)
          (compute_KL encoder_output)))))

/-- From vae.py lines 178-180: `on = images > npr.uniform(...)`, then
`images * 0.0` with the pixels in `on` set to `1.0`.  The uniform draw matrix
`u` is passed explicitly. -/
def binarize (img u : Mat) : Mat :=
  ⟨img.rows, img.cols,
    fun i j => if u.entry i j < img.entry i j then 1.0 else img.entry i j * 0.0⟩

/-- From vae.py lines 170-182: the training objective, with the parameters
already unflattened and the two random draws passed explicitly. -/
def objective (gen_params rec_params : List (Mat × Vec)) (batch_images u noise : Mat) :
    Option ℝ :=
  vae_lower_bound gen_params rec_params (binarize batch_images u) noise

/-- From vae.py line 192: the Adam step size. -/
def alpha : ℝ := 0.001

/-- From vae.py line 193: the Adam first-moment decay rate. -/
def beta1 : ℝ := 0.9

/-- From vae.py line 194: the Adam second-moment decay rate. -/
def beta2 : ℝ := 0.999

/-- From vae.py line 195: the Adam divide-by-zero guard. -/
def epsilon : ℝ := 1e-8

/-- The Adam optimizer state of vae.py lines 197-200: moment vectors `m`
and `v`, step counter `t`, and the flattened parameter vector `theta`. -/
structure AdamState where
  m : ℕ → ℝ
  v : ℕ → ℝ
  t : ℕ
  theta : ℕ → ℝ

/-- From vae.py lines 197-200: `m` and `v` start at zero and `t` at 1. -/
def adam_init (theta0 : ℕ → ℝ) : AdamState := ⟨fun _ => 0, fun _ => 0, 1, theta0⟩

/-- From vae.py lines 215-226: one mini-batch Adam transition given the
gradient `g` of the objective at the current parameters. -/
def adam_update (s : AdamState) (g : ℕ → ℝ) : AdamState :=
  let m := fun i => beta1 * s.m i + (1 - beta1) * g i
  let v := fun i => beta2 * s.v i + (1 - beta2) * g i ^ 2
  let m_est := fun i => m i / (1 - beta1 ^ s.t)
  let v_est := fun i => v i / (1 - beta2 ^ s.t)
  ⟨m, v, s.t + 1, fun i => s.theta i + alpha * m_est i / (Real.sqrt (v_est i) + epsilon)⟩

/-- The Adam transition as the spec words it (spec section 4.6, steps 3-6):
moment updates, bias correction, `θ ← θ + α · m̂ / (√v̂ + ε)`, then `t`
incremented. -/
def adam_update_spec (s : AdamState) (g : ℕ → ℝ) : AdamState :=
  let m := fun i => beta1 * s.m i + (1 - beta1) * g i
  let v := fun i => beta2 * s.v i + (1 - beta2) * g i ^ 2
  let mHat := fun i => m i / (1 - beta1 ^ s.t)
  let vHat := fun i => v i / (1 - beta2 ^ s.t)
  ⟨m, v, s.t + 1, fun i => s.theta i + alpha * (mHat i / (Real.sqrt (vHat i) + epsilon))⟩

/-- From vae.py line 282: `np.linspace(a, b, n)`, the evenly spaced grid
`a + (b - a) * i / (n - 1)` including both endpoints. -/
def linspace (a b : ℝ) (n : ℕ) : Vec :=
  ⟨n, fun i => a + (b - a) * (i : ℝ) / ((n : ℝ) - 1)⟩

/-- A vector viewed as a one-row matrix (a single image fed to the nets). -/
def rowMat (v : Vec) : Mat := ⟨1, v.len, fun _ j => v.entry j⟩

/-- From vae.py line 282: the 25 interpolated latent vectors
`[mean2 * s + (1 - s) * mean1 for s in np.linspace(0.0, 1.0, 25)]`,
stacked as a matrix. -/
def interpolations (mean1 mean2 : Vec) : Mat :=
  ⟨25, mean1.len,
    fun i j => mean2.entry j * (linspace 0.0 1.0 25).entry i +
      (1 - (linspace 0.0 1.0 25).entry i) * mean1.entry j⟩

/-- Layer parameters in concrete list form, for the flatten transform:
a weight matrix as a list of rows and a bias list. -/
abbrev LLayer := List (List ℝ) × List ℝ

/-- A network parameter list in concrete list form. -/
abbrev LNet := List LLayer

/-- Modelled from the spec: `autograd.misc.flatten` (used at vae.py line 166)
is not part of this repository; the spec describes the flattened vector as
"the concatenation of all (generator + recognition) parameters".  A weight
matrix flattens row-major. -/
def flatten_mat (W : List (List ℝ)) : List ℝ := W.flatten

/-- Modelled from the spec: one layer flattens to its weights then its bias. -/
def flatten_layer (l : LLayer) : List ℝ := flatten_mat l.1 ++ l.2

/-- Modelled from the spec: a network flattens layer by layer. -/
def flatten_net (ps : LNet) : List ℝ := (ps.map flatten_layer).flatten

/-- Modelled from the spec: the flattened combined parameter vector,
generator parameters followed by recognition parameters. -/
def flatten_params (p : LNet × LNet) : List ℝ := flatten_net p.1 ++ flatten_net p.2

/-- Modelled from the spec: rebuild a weight matrix from the front of a
flat buffer, reading each row length off the template; returns the matrix
and the unconsumed remainder. -/
def unflat_mat : List (List ℝ) → List ℝ → List (List ℝ) × List ℝ
  | [], v => ([], v)
  | r :: rs, v =>
    let rest := unflat_mat rs (v.drop r.length)
    (v.take r.length :: rest.1, rest.2)

/-- Modelled from the spec: rebuild one layer (weights, then bias) from the
front of a flat buffer. -/
def unflat_layer (t : LLayer) (v : List ℝ) : LLayer × List ℝ :=
  let mw := unflat_mat t.1 v
  ((mw.1, mw.2.take t.2.length), mw.2.drop t.2.length)

/-- Modelled from the spec: rebuild a network layer by layer from the front
of a flat buffer. -/
def unflat_net : LNet → List ℝ → LNet × List ℝ
  | [], v => ([], v)
  | l :: ls, v =>
    let first := unflat_layer l v
    let rest := unflat_net ls first.2
    (first.1 :: rest.1, rest.2)

/-- Modelled from the spec: the inverse transform returned by `flatten` at
vae.py line 166 and applied at lines 172 and 232, reconstructing the
(generator, recognition) pair from the flat vector. -/
def unflat_params (t : LNet × LNet) (v : List ℝ) : LNet × LNet :=
  let g := unflat_net t.1 v
  (g.1, (unflat_net t.2 g.2).1)

/-- Concrete 1x1 all-ones matrix used to instantiate theorems. -/
def mat1 : Mat := ⟨1, 1, fun _ _ => 1⟩

/-- Concrete length-1 zero vector. -/
def vec0 : Vec := ⟨1, fun _ => 0⟩

/-- Concrete length-1 all-ones vector. -/
def vec1 : Vec := ⟨1, fun _ => 1⟩

/-- Concrete one-layer network. -/
def layer1 : Mat × Vec := (mat1, vec0)

/-- Concrete one-layer parameter list. -/
def net1 : List (Mat × Vec) := [layer1]

/-- Concrete 1x1 matrix holding 1/2, a target value strictly between 0 and 1. -/
def halfMat : Mat := ⟨1, 1, fun _ _ => (1 : ℝ) / 2⟩

/-- Concrete 1x1 logits matrix holding `log 3`, whose sigmoid is 3/4. -/
def log3Mat : Mat := ⟨1, 1, fun _ _ => Real.log 3⟩

/-! ## Helper lemmas -/

lemma exp_lower (x : ℝ) : 0 ≤ Real.exp x - 1 - x := by
  have h := Real.add_one_le_exp x
  linarith

lemma sigmoid_pos (x : ℝ) : 0 < sigmoid x := by
  unfold sigmoid
  have h := Real.exp_pos (-x)
  exact div_pos (by norm_num) (by positivity)

lemma sigmoid_lt_one (x : ℝ) : sigmoid x < 1 := by
  unfold sigmoid
  rw [div_lt_one (by positivity)]
  have h := Real.exp_pos (-x)
  linarith

lemma hiddenPass_nil (A : Mat) : hiddenPass [] A = A := rfl

lemma hiddenPass_cons (l : Mat × Vec) (ps : List (Mat × Vec)) (A : Mat) :
    hiddenPass (l :: ps) A = hiddenPass ps (matRelu (affine A l)) := rfl

lemma hiddenPass_rows (ps : List (Mat × Vec)) : ∀ A : Mat, (hiddenPass ps A).rows = A.rows := by
  induction ps with
  | nil => intro A; rfl
  | cons l ps ih => intro A; rw [hiddenPass_cons, ih]; rfl

lemma hiddenPass_congr (ps : List (Mat × Vec)) :
    ∀ (A B : Mat) (i j : ℕ), A.cols = B.cols → (∀ k, A.entry i k = B.entry j k) →
      (hiddenPass ps A).cols = (hiddenPass ps B).cols ∧
      ∀ c, (hiddenPass ps A).entry i c = (hiddenPass ps B).entry j c := by
  induction ps with
  | nil => intro A B i j hc he; exact ⟨hc, he⟩
  | cons l ps ih =>
    intro A B i j hc he
    rw [hiddenPass_cons, hiddenPass_cons]
    apply ih
    · rfl
    · intro k
      show relu ((∑ m in Finset.range A.cols, A.entry i m * l.1.entry m k) + l.2.entry k) =
        relu ((∑ m in Finset.range B.cols, B.entry j m * l.1.entry m k) + l.2.entry k)
      have hsum : (∑ m in Finset.range A.cols, A.entry i m * l.1.entry m k) =
          ∑ m in Finset.range B.cols, B.entry j m * l.1.entry m k := by
        rw [hc]
        exact Finset.sum_congr rfl (fun m _ => by rw [he m])
      rw [hsum]

lemma getLast_some {α : Type} (ps : List α) (h : ps ≠ []) : ∃ l, ps.getLast? = some l :=
  ⟨ps.getLast h, List.getLast?_eq_getLast ps h⟩

lemma nnp_some (ps : List (Mat × Vec)) (inputs : Mat) (h : ps ≠ []) :
    ∃ M, neural_net_predict ps inputs = some M := by
  obtain ⟨l, hl⟩ := getLast_some ps h
  exact ⟨_, by unfold neural_net_predict; rw [hl]; rfl⟩

lemma nnp_congr (ps : List (Mat × Vec)) (A B : Mat) (i j : ℕ) (M N : Mat)
    (hc : A.cols = B.cols) (he : ∀ k, A.entry i k = B.entry j k)
    (hM : neural_net_predict ps A = some M) (hN : neural_net_predict ps B = some N) :
    ∀ c, M.entry i c = N.entry j c := by
  unfold neural_net_predict at hM hN
  cases hl : ps.getLast? with
  | none => rw [hl] at hM; exact absurd hM (by simp)
  | some l =>
    rw [hl] at hM hN
    simp only [Option.map_some', Option.some.injEq] at hM hN
    obtain ⟨hcols, hent⟩ := hiddenPass_congr ps.dropLast A B i j hc he
    intro c
    rw [← hM, ← hN]
    show (∑ k in Finset.range (hiddenPass ps.dropLast A).cols,
        (hiddenPass ps.dropLast A).entry i k * l.1.entry k c) + l.2.entry c =
      (∑ k in Finset.range (hiddenPass ps.dropLast B).cols,
        (hiddenPass ps.dropLast B).entry j k * l.1.entry k c) + l.2.entry c
    rw [hcols]
    congr 1
    exact Finset.sum_congr rfl (fun k _ => by rw [hent k])

lemma AdamState_eq (a b : AdamState) (hm : a.m = b.m) (hv : a.v = b.v)
    (ht : a.t = b.t) (hth : a.theta = b.theta) : a = b := by
  cases a
  cases b
  dsimp at hm hv ht hth
  subst hm
  subst hv
  subst ht
  subst hth
  rfl

/-! ## Claim theorems -/

/-- C2: each mini-batch transition of the training loop updates the Adam
state exactly as the spec writes it — `m ← β1·m + (1−β1)·g`,
`v ← β2·v + (1−β2)·g²`, bias correction by `1−β^t`, ascent step
`θ ← θ + α·m̂/(√v̂+ε)`, then `t` incremented — with `m`, `v` initialized to
zero, `t` initialized to 1, and α=0.001, β1=0.9, β2=0.999, ε=1e-8. -/
theorem adam_transition_matches_spec :
    alpha = 0.001 ∧ beta1 = 0.9 ∧ beta2 = 0.999 ∧ epsilon = 1e-8 ∧
    (∀ theta0 : ℕ → ℝ, (adam_init theta0).t = 1 ∧ (∀ i, (adam_init theta0).m i = 0) ∧
      (∀ i, (adam_init theta0).v i = 0) ∧ (adam_init theta0).theta = theta0) ∧
    (∀ s g, adam_update s g = adam_update_spec s g) ∧
    (∀ s g, (adam_update s g).t = s.t + 1) := by
  refine ⟨rfl, rfl, rfl, rfl,
    fun theta0 => ⟨rfl, fun i => rfl, fun i => rfl, rfl⟩, ?_, fun s g => rfl⟩
  intro s g
  refine AdamState_eq _ _ rfl rfl rfl ?_
  funext i
  show s.theta i +
      alpha * ((beta1 * s.m i + (1 - beta1) * g i) / (1 - beta1 ^ s.t)) /
        (Real.sqrt ((beta2 * s.v i + (1 - beta2) * g i ^ 2) / (1 - beta2 ^ s.t)) + epsilon) =
    s.theta i +
      alpha * (((beta1 * s.m i + (1 - beta1) * g i) / (1 - beta1 ^ s.t)) /
        (Real.sqrt ((beta2 * s.v i + (1 - beta2) * g i ^ 2) / (1 - beta2 ^ s.t)) + epsilon))
  rw [mul_div_assoc]

/-- C4: elementwise, `exp(2·log_std) + mean² - 1 - 2·log_std ≥ 0` for all
real inputs, and consequently every row of the output of `compute_KL` is
non-negative, for any batch matrix. -/
theorem compute_KL_nonneg :
    (∀ mean log_std : ℝ, 0 ≤ Real.exp (2 * log_std) + mean ^ 2 - 1 - 2 * log_std) ∧
    (∀ q : Mat, ∀ i, 0 ≤ (compute_KL q).entry i) := by
  constructor
  · intro mean log_std
    have h1 := exp_lower (2 * log_std)
    have h2 := sq_nonneg mean
    linarith
  · intro q i
    simp only [compute_KL]
    apply mul_nonneg (by norm_num)
    apply Finset.sum_nonneg
    intro j _
    have h1 := exp_lower (q.entry i (q.cols / 2 + j) * 2)
    have h2 := sq_nonneg (q.entry i j)
    linarith

/-- C8: the training objective evaluates the lower bound on the binarized
batch, and binarization sets each pixel to 1.0 exactly when the original
intensity exceeds its own uniform draw and to 0.0 otherwise, so every
binarized pixel is exactly 0 or 1.  (The per-pixel uniform draw matrix is
passed explicitly.) -/
theorem objective_binarizes_batch :
    (∀ gp rp X u noise, objective gp rp X u noise =
      vae_lower_bound gp rp (binarize X u) noise) ∧
    (∀ X u : Mat, ∀ i j, (binarize X u).entry i j =
      if u.entry i j < X.entry i j then 1 else 0) ∧
    (∀ X u : Mat, ∀ i j, (binarize X u).entry i j = 0 ∨ (binarize X u).entry i j = 1) := by
  refine ⟨fun gp rp X u noise => rfl, ?_, ?_⟩
  · intro X u i j
    simp only [binarize]
    by_cases h : u.entry i j < X.entry i j
    · rw [if_pos h, if_pos h]
      norm_num
    · rw [if_neg h, if_neg h]
      norm_num
  · intro X u i j
    simp only [binarize]
    by_cases h : u.entry i j < X.entry i j
    · right
      rw [if_pos h]
      norm_num
    · left
      rw [if_neg h]
      norm_num

/-- C9: over exact real arithmetic `sigmoid` maps every real into the open
interval (0,1), and for target values in {0,1} the argument of the
logarithm inside `bernoulli_log_prob` is strictly positive for any logit. -/
theorem sigmoid_range_and_log_arg_pos :
    (∀ x : ℝ, 0 < sigmoid x ∧ sigmoid x < 1) ∧
    (∀ t l : ℝ, (t = 0 ∨ t = 1) →
      0 < t * sigmoid l + (1 - t) * (1 - sigmoid l)) := by
  constructor
  · intro x
    exact ⟨sigmoid_pos x, sigmoid_lt_one x⟩
  · intro t l ht
    have h1 := sigmoid_pos l
    have h2 := sigmoid_lt_one l
    rcases ht with h | h <;> subst h
    · simp only [zero_mul, sub_zero, one_mul, zero_add]
      linarith
    · simp only [one_mul, sub_self, zero_mul, add_zero]
      linarith

/-- Witness for C9 at target 0 and logit 0. -/
theorem sigmoid_range_and_log_arg_pos_witness :
    ((0 : ℝ) = 0 ∨ (0 : ℝ) = 1) ∧
    0 < (0 : ℝ) * sigmoid 0 + (1 - 0) * (1 - sigmoid 0) :=
  ⟨Or.inl rfl, sigmoid_range_and_log_arg_pos.2 0 0 (Or.inl rfl)⟩

/-- C10: `neural_net_predict` is undefined on the empty parameter list (the
access to `params[-1]` is out of range), and defined on every non-empty
parameter list. -/
theorem neural_net_predict_empty_params :
    (∀ inputs, neural_net_predict [] inputs = none) ∧
    (∀ params : List (Mat × Vec), ∀ inputs, params ≠ [] →
      ∃ M, neural_net_predict params inputs = some M) := by
  constructor
  · intro inputs
    rfl
  · intro params inputs h
    exact nnp_some params inputs h

/-- Witness for C10 on a concrete one-layer network. -/
theorem neural_net_predict_empty_params_witness :
    net1 ≠ [] ∧ ∃ M, neural_net_predict net1 mat1 = some M := by
  have h : net1 ≠ [] := by simp [net1]
  exact ⟨h, neural_net_predict_empty_params.2 net1 mat1 h⟩

lemma sigmoid_log_three : sigmoid (Real.log 3) = 3 / 4 := by
  unfold sigmoid
  rw [Real.exp_neg, Real.exp_log (by norm_num : (0:ℝ) < 3)]
  norm_num

/-- C1 (counterexample): for the target value 1/2 (allowed by the claim,
which quantifies over targets in [0,1]) and logit `log 3`, the code value
`log(t·p + (1-t)·(1-p))` differs from the claimed value
`t·log p + (1-t)·log(1-p)`. -/
theorem bernoulli_log_prob_general_targets_cex :
    (bernoulli_log_prob halfMat log3Mat).entry 0 ≠
      (bernoulli_log_prob_spec halfMat log3Mat).entry 0 := by
  have hL : (bernoulli_log_prob halfMat log3Mat).entry 0 = Real.log (1 / 2) := by
    simp only [bernoulli_log_prob, halfMat, log3Mat, Finset.sum_range_one]
    rw [sigmoid_log_three]
    norm_num
  have hR : (bernoulli_log_prob_spec halfMat log3Mat).entry 0 =
      1 / 2 * Real.log (3 / 4) + 1 / 2 * Real.log (1 / 4) := by
    simp only [bernoulli_log_prob_spec, halfMat, log3Mat, Finset.sum_range_one]
    rw [sigmoid_log_three]
    norm_num
  intro hcontra
  rw [hL, hR] at hcontra
  have h2 : Real.log ((1:ℝ) / 2 * (1 / 2)) = Real.log ((3:ℝ) / 4 * (1 / 4)) := by
    rw [Real.log_mul (by norm_num) (by norm_num), Real.log_mul (by norm_num) (by norm_num)]
    linarith
  have h3 : ((1:ℝ) / 2 * (1 / 2)) = (3:ℝ) / 4 * (1 / 4) := by
    have h4 := congrArg Real.exp h2
    rwa [Real.exp_log (by norm_num), Real.exp_log (by norm_num)] at h4
  norm_num at h3

/-- C1 (amended): for every target matrix with entries in {0,1} — the
binarized case the code is used on — and every logits matrix,
`bernoulli_log_prob` returns, per row, the sum across the feature axis of
`target*log(p) + (1-target)*log(1-p)` with `p = sigmoid(logit)`. -/
theorem bernoulli_log_prob_binarized_matches_spec (targets logits : Mat)
    (h : ∀ i j, targets.entry i j = 0 ∨ targets.entry i j = 1) :
    (bernoulli_log_prob targets logits).len = (bernoulli_log_prob_spec targets logits).len ∧
    ∀ i, (bernoulli_log_prob targets logits).entry i =
      (bernoulli_log_prob_spec targets logits).entry i := by
  refine ⟨rfl, ?_⟩
  intro i
  simp only [bernoulli_log_prob, bernoulli_log_prob_spec]
  apply Finset.sum_congr rfl
  intro j _
  rcases h i j with ht | ht <;> rw [ht]
  · have harg : (0:ℝ) * sigmoid (logits.entry i j) +
        (1 - 0) * (1 - sigmoid (logits.entry i j)) = 1 - sigmoid (logits.entry i j) := by
      ring
    rw [harg]
    ring
  · have harg : (1:ℝ) * sigmoid (logits.entry i j) +
        (1 - 1) * (1 - sigmoid (logits.entry i j)) = sigmoid (logits.entry i j) := by
      ring
    rw [harg]
    ring

/-- Witness for the amended C1 on an all-ones 1x1 target. -/
theorem bernoulli_log_prob_binarized_matches_spec_witness :
    (∀ i j, mat1.entry i j = 0 ∨ mat1.entry i j = 1) ∧
    ((bernoulli_log_prob mat1 mat1).len = (bernoulli_log_prob_spec mat1 mat1).len ∧
      ∀ i, (bernoulli_log_prob mat1 mat1).entry i =
        (bernoulli_log_prob_spec mat1 mat1).entry i) :=
  ⟨fun _ _ => Or.inr rfl,
    bernoulli_log_prob_binarized_matches_spec mat1 mat1 (fun _ _ => Or.inr rfl)⟩

/-- C6: `neural_net_predict` applies affine-then-relu for every layer before
the last, the last layer affine only; the output has the input's row count
and the last layer's output dimension as column count; and on a one-layer
parameter list it is exactly the affine map `inputs·W + b`. -/
theorem neural_net_predict_structure :
    (∀ l : Mat × Vec, ∀ params : List (Mat × Vec), ∀ inputs : Mat, params ≠ [] →
      neural_net_predict (l :: params) inputs =
        neural_net_predict params (matRelu (affine inputs l))) ∧
    (∀ (W : Mat) (b : Vec) (inputs : Mat),
      neural_net_predict [(W, b)] inputs =
        some ⟨inputs.rows, W.cols,
          fun i j => (∑ k in Finset.range inputs.cols, inputs.entry i k * W.entry k j) +
            b.entry j⟩) ∧
    (∀ params l inputs M, params.getLast? = some l →
      neural_net_predict params inputs = some M →
      M.rows = inputs.rows ∧ M.cols = l.1.cols) := by
  refine ⟨?_, ?_, ?_⟩
  · intro l params inputs h
    cases params with
    | nil => exact absurd rfl h
    | cons a as =>
      unfold neural_net_predict
      rw [List.getLast?_cons_cons]
      rfl
  · intro W b inputs
    rfl
  · intro params l inputs M hlast hM
    unfold neural_net_predict at hM
    rw [hlast] at hM
    simp only [Option.map_some', Option.some.injEq] at hM
    rw [← hM]
    exact ⟨hiddenPass_rows params.dropLast inputs, rfl⟩

/-- Witness for C6 on a concrete two-layer and one-layer network. -/
theorem neural_net_predict_structure_witness :
    (net1 ≠ [] ∧
      neural_net_predict (layer1 :: net1) mat1 =
        neural_net_predict net1 (matRelu (affine mat1 layer1))) ∧
    (net1.getLast? = some layer1 ∧
      neural_net_predict net1 mat1 = some (affine mat1 layer1) ∧
      (affine mat1 layer1).rows = mat1.rows ∧ (affine mat1 layer1).cols = layer1.1.cols) := by
  have hne : net1 ≠ [] := by simp [net1]
  exact ⟨⟨hne, neural_net_predict_structure.1 layer1 net1 mat1 hne⟩, rfl, rfl,
    neural_net_predict_structure.2.2 net1 layer1 mat1 (affine mat1 layer1) rfl rfl⟩

/-- C3: `vae_lower_bound` is the mean over batch rows of
`bernoulli_log_prob(data, decoder_output) - compute_KL(encoder_output)`,
where the encoder output is the recognition net on the data, the latent
sample comes from the posterior sampler, and the decoder output is the
generator net on that sample. -/
theorem vae_lower_bound_composition (gen_params rec_params : List (Mat × Vec))
    (data noise : Mat) (hg : gen_params ≠ []) (hr : rec_params ≠ []) :
    ∃ encoder_output decoder_output,
      neural_net_predict rec_params data = some encoder_output ∧
      neural_net_predict gen_params
        (sample_latent_variables_from_posterior encoder_output noise) = some decoder_output ∧
      vae_lower_bound gen_params rec_params data noise =
        some (meanVec (vecSub (bernoulli_log_prob data decoder_output)
          (compute_KL encoder_output))) := by
  obtain ⟨enc, henc⟩ := nnp_some rec_params data hr
  obtain ⟨dec, hdec⟩ :=
    nnp_some gen_params (sample_latent_variables_from_posterior enc noise) hg
  refine ⟨enc, dec, henc, hdec, ?_⟩
  unfold vae_lower_bound
  rw [henc, Option.some_bind, hdec, Option.some_bind]

/-- Witness for C3 on concrete one-layer networks and a 1x1 batch. -/
theorem vae_lower_bound_composition_witness :
    net1 ≠ [] ∧
    ∃ encoder_output decoder_output,
      neural_net_predict net1 mat1 = some encoder_output ∧
      neural_net_predict net1
        (sample_latent_variables_from_posterior encoder_output mat1) = some decoder_output ∧
      vae_lower_bound net1 net1 mat1 mat1 =
        some (meanVec (vecSub (bernoulli_log_prob mat1 decoder_output)
          (compute_KL encoder_output))) := by
  have h : net1 ≠ [] := by simp [net1]
  exact ⟨h, vae_lower_bound_composition net1 net1 mat1 mat1 h h⟩

/-- C5: the latent interpolation uses the 25-point evenly spaced grid
`i/24` on [0,1] including both endpoints, interpolates the posterior means
as `s·mean2 + (1-s)·mean1`, and the decoded row at s=0 equals the decode of
`mean1` while the decoded row at s=1 equals the decode of `mean2`. -/
theorem interpolation_endpoints (gp : List (Mat × Vec)) (mean1 mean2 : Vec)
    (M0 Ma Mb : Mat) (hlen : mean1.len = mean2.len)
    (h0 : neural_net_predict gp (interpolations mean1 mean2) = some M0)
    (ha : neural_net_predict gp (rowMat mean1) = some Ma)
    (hb : neural_net_predict gp (rowMat mean2) = some Mb) :
    (linspace 0.0 1.0 25).len = 25 ∧
    (∀ i : ℕ, (linspace 0.0 1.0 25).entry i = (i : ℝ) / 24) ∧
    (interpolations mean1 mean2).rows = 25 ∧
    (∀ i j, (interpolations mean1 mean2).entry i j =
      mean2.entry j * (linspace 0.0 1.0 25).entry i +
        (1 - (linspace 0.0 1.0 25).entry i) * mean1.entry j) ∧
    (∀ c, M0.entry 0 c = Ma.entry 0 c) ∧
    (∀ c, M0.entry 24 c = Mb.entry 0 c) := by
  have hgrid : ∀ i : ℕ, (linspace 0.0 1.0 25).entry i = (i : ℝ) / 24 := by
    intro i
    show (0.0 : ℝ) + (1.0 - 0.0) * (i : ℝ) / (((25 : ℕ) : ℝ) - 1) = (i : ℝ) / 24
    norm_num
  refine ⟨rfl, hgrid, rfl, fun i j => rfl, ?_, ?_⟩
  · apply nnp_congr gp (interpolations mean1 mean2) (rowMat mean1) 0 0 M0 Ma rfl ?_ h0 ha
    intro k
    show mean2.entry k * (linspace 0.0 1.0 25).entry 0 +
        (1 - (linspace 0.0 1.0 25).entry 0) * mean1.entry k = mean1.entry k
    rw [hgrid 0]
    norm_num
  · apply nnp_congr gp (interpolations mean1 mean2) (rowMat mean2) 24 0 M0 Mb hlen ?_ h0 hb
    intro k
    show mean2.entry k * (linspace 0.0 1.0 25).entry 24 +
        (1 - (linspace 0.0 1.0 25).entry 24) * mean1.entry k = mean2.entry k
    rw [hgrid 24]
    norm_num

/-- Witness for C5 on a concrete one-layer decoder and length-1 means. -/
theorem interpolation_endpoints_witness :
    vec0.len = vec1.len ∧
    neural_net_predict net1 (interpolations vec0 vec1) =
      some (affine (interpolations vec0 vec1) layer1) ∧
    neural_net_predict net1 (rowMat vec0) = some (affine (rowMat vec0) layer1) ∧
    neural_net_predict net1 (rowMat vec1) = some (affine (rowMat vec1) layer1) ∧
    ((linspace 0.0 1.0 25).len = 25 ∧
      (∀ i : ℕ, (linspace 0.0 1.0 25).entry i = (i : ℝ) / 24) ∧
      (interpolations vec0 vec1).rows = 25 ∧
      (∀ i j, (interpolations vec0 vec1).entry i j =
        vec1.entry j * (linspace 0.0 1.0 25).entry i +
          (1 - (linspace 0.0 1.0 25).entry i) * vec0.entry j) ∧
      (∀ c, (affine (interpolations vec0 vec1) layer1).entry 0 c =
        (affine (rowMat vec0) layer1).entry 0 c) ∧
      (∀ c, (affine (interpolations vec0 vec1) layer1).entry 24 c =
        (affine (rowMat vec1) layer1).entry 0 c)) :=
  ⟨rfl, rfl, rfl, rfl,
    interpolation_endpoints net1 vec0 vec1
      (affine (interpolations vec0 vec1) layer1)
      (affine (rowMat vec0) layer1)
      (affine (rowMat vec1) layer1) rfl rfl rfl rfl⟩

lemma take_len_append {α : Type} (xs ys : List α) : (xs ++ ys).take xs.length = xs := by
  simp

lemma drop_len_append {α : Type} (xs ys : List α) : (xs ++ ys).drop xs.length = ys := by
  simp

lemma unflat_mat_round (W : List (List ℝ)) (rest : List ℝ) :
    unflat_mat W (flatten_mat W ++ rest) = (W, rest) := by
  induction W with
  | nil => rfl
  | cons r rs ih =>
    have h1 : flatten_mat (r :: rs) ++ rest = r ++ (flatten_mat rs ++ rest) := by
      show (r ++ flatten_mat rs) ++ rest = r ++ (flatten_mat rs ++ rest)
      rw [List.append_assoc]
    rw [h1]
    show ((r ++ (flatten_mat rs ++ rest)).take r.length ::
        (unflat_mat rs ((r ++ (flatten_mat rs ++ rest)).drop r.length)).1,
      (unflat_mat rs ((r ++ (flatten_mat rs ++ rest)).drop r.length)).2) = (r :: rs, rest)
    rw [take_len_append, drop_len_append, ih]

lemma unflat_layer_round (l : LLayer) (rest : List ℝ) :
    unflat_layer l (flatten_layer l ++ rest) = (l, rest) := by
  have h1 : flatten_layer l ++ rest = flatten_mat l.1 ++ (l.2 ++ rest) := by
    show (flatten_mat l.1 ++ l.2) ++ rest = flatten_mat l.1 ++ (l.2 ++ rest)
    rw [List.append_assoc]
  rw [h1]
  show (((unflat_mat l.1 (flatten_mat l.1 ++ (l.2 ++ rest))).1,
      (unflat_mat l.1 (flatten_mat l.1 ++ (l.2 ++ rest))).2.take l.2.length),
    (unflat_mat l.1 (flatten_mat l.1 ++ (l.2 ++ rest))).2.drop l.2.length) = (l, rest)
  rw [unflat_mat_round l.1 (l.2 ++ rest)]
  simp [take_len_append, drop_len_append]

lemma unflat_net_round (ps : LNet) (rest : List ℝ) :
    unflat_net ps (flatten_net ps ++ rest) = (ps, rest) := by
  induction ps with
  | nil => rfl
  | cons l ls ih =>
    have h1 : flatten_net (l :: ls) ++ rest = flatten_layer l ++ (flatten_net ls ++ rest) := by
      show (flatten_layer l ++ flatten_net ls) ++ rest =
        flatten_layer l ++ (flatten_net ls ++ rest)
      rw [List.append_assoc]
    rw [h1]
    show (((unflat_layer l (flatten_layer l ++ (flatten_net ls ++ rest))).1 ::
        (unflat_net ls (unflat_layer l (flatten_layer l ++ (flatten_net ls ++ rest))).2).1),
      (unflat_net ls (unflat_layer l (flatten_layer l ++ (flatten_net ls ++ rest))).2).2) =
      (l :: ls, rest)
    rw [unflat_layer_round l (flatten_net ls ++ rest)]
    simp [ih]

/-- C7: flatten-then-unflatten of a (generator, recognition) nested
parameter structure reproduces the original structure exactly — same
nesting, same row lengths, same values. -/
theorem flatten_unflatten_id (gp rp : LNet) :
    unflat_params (gp, rp) (flatten_params (gp, rp)) = (gp, rp) := by
  show unflat_params (gp, rp) (flatten_net gp ++ flatten_net rp) = (gp, rp)
  have h2 : unflat_net rp (flatten_net rp) = (rp, []) := by
    have h3 := unflat_net_round rp []
    rwa [List.append_nil] at h3
  show (((unflat_net gp (flatten_net gp ++ flatten_net rp)).1),
    (unflat_net rp (unflat_net gp (flatten_net gp ++ flatten_net rp)).2).1) = (gp, rp)
  rw [unflat_net_round gp (flatten_net rp)]
  simp [h2]

end

end VAE
